import Mathlib

/-!
Shallow embedding of the mtg card-aggregation pipeline (src/card_utils.py and
src/aggregators/), with theorems settling the frozen claims about it.

Python dicts are embedded as association lists in insertion order; Python sets of
strings as `Finset String`; `datetime.date` values as parsed `(year, month, day)`
triples, encoded as `y*10000 + m*100 + d` where only the total order matters and as
proleptic-Gregorian ordinals where day arithmetic matters.  Code that can raise a
`ValueError` is embedded with an explicit error channel (`Except Unit` or a `Bool`
raised-flag), since the driver (`run_internal` in src/card_aggregator.py) catches
exceptions per aggregator per card and continues with the partially updated state.
-/

namespace Mtg

/-! ## Characters, tokenization and string replacement (card_utils.extract_types) -/

/-- A word character for the regex `\w` (ASCII range, which covers type lines). -/
def isWordChar (c : Char) : Bool := c.isAlphanum || c = '_'

/-- A character matched by the regex character class `[\w\-']`. -/
def isTokenChar (c : Char) : Bool := isWordChar c || c = '-' || c.toNat = 39

/-- Maximal runs of `[\w\-']` characters in a character list (fuel-driven; the fuel
`l.length` always suffices because every step consumes at least one character). -/
def tokenRunsF : Nat → List Char → List (List Char)
  | 0, _ => []
  | _, [] => []
  | fuel + 1, c :: cs =>
    if isTokenChar c then
      (c :: cs.takeWhile isTokenChar) :: tokenRunsF fuel (cs.dropWhile isTokenChar)
    else tokenRunsF fuel cs

def tokenRuns (l : List Char) : List (List Char) := tokenRunsF l.length l

/-- Trim the characters of `[\-']` from both ends of a run: the `\b` boundaries of the
pattern `\b[\w\-']+\b` force every match to start and end on a `\w` character. -/
def trimRun (t : List Char) : List Char :=
  ((t.dropWhile (fun c => !isWordChar c)).reverse.dropWhile (fun c => !isWordChar c)).reverse

/-- Model of `re.findall(r"\b[\w\-']+\b", s)`: each maximal `[\w\-']` run contributes
its `\b`-trimmed core as one match (runs with no word character match nothing). -/
def findallWords (s : String) : List String :=
  (((tokenRuns s.data).map trimRun).filter (fun t => !t.isEmpty)).map (fun t => ⟨t⟩)

/-- Replace every non-overlapping occurrence of `pat` in the list, left to right
(fuel-driven; patterns used here are nonempty so `l.length` fuel suffices). -/
def replaceF (pat rep : List Char) : Nat → List Char → List Char
  | _, [] => []
  | 0, l => l
  | fuel + 1, c :: cs =>
    if pat.isPrefixOf (c :: cs) then rep ++ replaceF pat rep fuel ((c :: cs).drop pat.length)
    else c :: replaceF pat rep fuel cs

/-- Model of Python `str.replace` for nonempty patterns. -/
def strReplace (s pat rep : String) : String := ⟨replaceF pat.data rep.data s.data.length s.data⟩

/-- Embeds `card_utils.extract_types`; its only input is the card's
`type_line` field (`card.get("type_line", "")`, i.e. `none` behaves as `""`). -/
def extract_types (type_line : Option String) : Finset String :=
  let text := strReplace (type_line.getD "") "Time Lord" "Time-Lord"
  ((findallWords text).map (fun w => strReplace w "Time-Lord" "Time Lord")).toFinset

/-! ## Dates (datetime.date) and the sort key (card_utils.get_sort_key) -/

def isLeapYear (y : Nat) : Bool := (y % 4 = 0 && y % 100 ≠ 0) || y % 400 = 0

def daysInMonth (y m : Nat) : Nat :=
  if m = 2 then (if isLeapYear y then 29 else 28)
  else if m = 4 ∨ m = 6 ∨ m = 9 ∨ m = 11 then 30 else 31

/-- An ASCII digit (the shapes `\d` and `str.isdigit` accept in the inputs in scope). -/
def isDigitChar (c : Char) : Bool := 48 ≤ c.toNat && c.toNat ≤ 57

def digitVal (c : Char) : Nat := c.toNat - 48

def parseNatDigits (l : List Char) : Option Nat :=
  if l ≠ [] ∧ l.all isDigitChar then some (l.foldl (fun a c => 10 * a + digitVal c) 0)
  else none

/-- Model of `datetime.date.fromisoformat` on the dashed `YYYY-MM-DD` form used by the
Scryfall data (other ISO input shapes are out of scope): `none` models the `ValueError`
raised on a malformed string. -/
def iso_date_parse (s : String) : Option (Nat × Nat × Nat) :=
  match s.data with
  | [y1, y2, y3, y4, h1, m1, m2, h2, d1, d2] =>
    if h1 = '-' ∧ h2 = '-' then
      match parseNatDigits [y1, y2, y3, y4], parseNatDigits [m1, m2], parseNatDigits [d1, d2] with
      | some y, some m, some d =>
        if 1 ≤ y ∧ 1 ≤ m ∧ m ≤ 12 ∧ 1 ≤ d ∧ d ≤ daysInMonth y m then some (y, m, d) else none
      | _, _, _ => none
    else none
  | _ => none

/-- Order-preserving encoding of a valid calendar date (comparisons only). -/
def dcode : Nat × Nat × Nat → Nat
  | (y, m, d) => y * 10000 + m * 100 + d

/-- Python's `datetime.max.date()` is 9999-12-31. -/
def maxDateCode : Nat := 99991231

def daysBeforeMonth (y m : Nat) : Nat :=
  (List.range (m - 1)).foldl (fun a i => a + daysInMonth y (i + 1)) 0

/-- Proleptic Gregorian ordinal of a date, as `datetime.date.toordinal` (used where the
code subtracts dates to get a day count). -/
def toOrdinal : Nat × Nat × Nat → Nat
  | (y, m, d) => 365 * (y - 1) + (y - 1) / 4 - (y - 1) / 100 + (y - 1) / 400 + daysBeforeMonth y m + d

/-- Embeds the collector-number parse in `get_sort_key`:
`int(re.sub(r"[^0-9]+", "", s))` with the `ValueError` on an all-non-digit string
caught and turned into 0. -/
def parse_collector_number (s : String) : Nat :=
  let ds := s.data.filter isDigitChar
  if ds = [] then 0 else ds.foldl (fun a c => 10 * a + digitVal c) 0

abbrev SortKey := Nat × String × Nat × String

/-- Python's `str` comparison: lexicographic by code point. -/
def charListLt : List Char → List Char → Bool
  | [], [] => false
  | [], _ :: _ => true
  | _ :: _, [] => false
  | a :: as, b :: bs => if a < b then true else if b < a then false else charListLt as bs

def strLtB (a b : String) : Bool := charListLt a.data b.data

/-- Python's lexicographic comparison of the 4-tuples returned by `get_sort_key`. -/
def sortKeyLt (a b : SortKey) : Bool :=
  decide (a.1 < b.1) || (decide (a.1 = b.1) &&
    (strLtB a.2.1 b.2.1 || (decide (a.2.1 = b.2.1) &&
      (decide (a.2.2.1 < b.2.2.1) || (decide (a.2.2.1 = b.2.2.1) &&
        strLtB a.2.2.2 b.2.2.2)))))

/-! ## The card record model -/

/-- One face of a multi-faced card, with the fields `process_single_face` reads.
`none` models an absent field. -/
structure Face where
  name : Option String := none
  type_line : Option String := none
  keywords : List String := []
deriving DecidableEq

/-- A card record, with the fields the embedded aggregators read; `none` models an
absent field (`card.get(...)` returning `None`). -/
structure Card where
  name : Option String := none
  type_line : Option String := none
  keywords : List String := []
  released_at : Option String := none
  set : Option String := none
  collector_number : Option String := none
  card_faces : Option (List Face) := none
  set_type : Option String := none
  layout : Option String := none
  border_color : Option String := none
  finishes : List String := []
  mana_cost : Option String := none
  power : Option String := none
  toughness : Option String := none
deriving DecidableEq

/-- Embeds `card_utils.get_sort_key`.  `released_at` falsy (absent or empty) sorts as
`datetime.max.date()`; a present malformed date string raises `ValueError`, modelled by
`Except.error`. -/
def get_sort_key (card : Card) : Except Unit SortKey :=
  match card.released_at with
  | none => .ok (maxDateCode, card.set.getD "",
      parse_collector_number (card.collector_number.getD ""), card.collector_number.getD "")
  | some s =>
    if s = "" then
      .ok (maxDateCode, card.set.getD "",
        parse_collector_number (card.collector_number.getD ""), card.collector_number.getD "")
    else
      match iso_date_parse s with
      | some ymd => .ok (dcode ymd, card.set.getD "",
          parse_collector_number (card.collector_number.getD ""), card.collector_number.getD "")
      | none => .error ()

/-- Embeds `card_utils.is_all_creature_types`, reading the face's `name` and
`keywords`. -/
def is_all_creature_types (f : Face) : Bool :=
  decide (f.name = some "Mistform Ultimus") || f.keywords.contains "Changeling"

/-- The permanent card types of `card_utils.is_permanent`. -/
def permanentTypes : List String :=
  ["Artifact", "Battle", "Creature", "Enchantment", "Land", "Planeswalker"]

/-- Embeds `card_utils.is_permanent` on a card whose only field is `type_line`
(the shape the global-effects table builds). -/
def is_permanent_type_line (type_line : String) : Bool :=
  permanentTypes.any (fun t => decide (t ∈ extract_types (some type_line)))

/-- Modelled from the spec: `aggregators/constants.py` (the module defining
`NON_TRADITIONAL_SET_TYPES`) is not present under src/; the spec describes the excluded
set types as memorabilia/funny. -/
def NON_TRADITIONAL_SET_TYPES : List String := ["memorabilia", "funny"]

/-- Modelled from the spec: `aggregators/constants.py` is not present under src/;
the spec gives the excluded layouts as emblem/token. -/
def NON_TRADITIONAL_LAYOUTS : List String := ["emblem", "token"]

/-- Modelled from the spec: `aggregators/constants.py` is not present under src/;
the spec gives the excluded border colors as silver/gold. -/
def NON_TRADITIONAL_BORDERS : List String := ["silver", "gold"]

def optMem (o : Option String) (l : List String) : Bool :=
  match o with
  | some s => l.contains s
  | none => false

/-- Embeds `card_utils.is_traditional_card` (with its default exclusion sets). -/
def is_traditional_card (c : Card) : Bool :=
  !optMem c.set_type NON_TRADITIONAL_SET_TYPES &&
  !optMem c.layout NON_TRADITIONAL_LAYOUTS &&
  !decide (c.set = some "past") &&
  !optMem c.border_color NON_TRADITIONAL_BORDERS

/-! ## Mana-cost generalization (card_utils.generalize_mana_cost) -/

def wubrg : List Char := ['W', 'U', 'B', 'R', 'G']

def mnop : List Char := ['M', 'N', 'O', 'P']

/-- The first pass of `generalize_mana_cost`: build `color_map` in first-seen order;
`none` models the early `return mana_cost` on a 5th distinct color. -/
def buildColorMap : List Char → List (Char × Char) → Option (List (Char × Char))
  | [], m => some m
  | c :: cs, m =>
    if wubrg.contains c && (m.lookup c).isNone then
      if m.length < 4 then buildColorMap cs (m ++ [(c, mnop.getD m.length 'M')])
      else none
    else buildColorMap cs m

/-- Embeds `card_utils.generalize_mana_cost`. -/
def generalize_mana_cost (s : String) : String :=
  match buildColorMap s.data [] with
  | none => s
  | some m => ⟨s.data.map (fun c => (m.lookup c).getD c)⟩

/-- The distinct color letters already seen (in first-seen order) after scanning a
character list, starting from `seen`. -/
def colorSeen : List Char → List Char → List Char
  | [], seen => seen
  | c :: cs, seen =>
    if wubrg.contains c && !(seen.contains c) then colorSeen cs (seen ++ [c])
    else colorSeen cs seen

/-- The distinct color letters of a mana-cost string in order of first appearance. -/
def colorOrder (s : String) : List Char := colorSeen s.data []

/-- Pair a list of colors with the generic alphabet positionally. -/
def assignFrom : List Char → List Char → List (Char × Char)
  | [], _ => []
  | _ :: _, [] => []
  | c :: cs, g :: gs => (c, g) :: assignFrom cs gs

/-- The placeholder assigned to color `c`: the generic letter at `c`'s first-appearance
rank. -/
def genericFor (order : List Char) (c : Char) : Char :=
  mnop.getD (order.indexOf c) c

/-! ## Association lists (Python dicts in insertion order) -/

def alistFind {α β : Type} [DecidableEq α] : List (α × β) → α → Option β
  | [], _ => none
  | (k, v) :: rest, key => if k = key then some v else alistFind rest key

/-- Python dict assignment `d[k] = v`: replace in place when the key is present,
append otherwise. -/
def alistInsert {α β : Type} [DecidableEq α] (l : List (α × β)) (k : α) (v : β) :
    List (α × β) :=
  if (alistFind l k).isSome then l.map (fun p => if p.1 = k then (k, v) else p)
  else l ++ [(k, v)]

/-! ## The global-effects table (MaximalTypesWithEffectsAggregator.define_global_effects) -/

def BASIC_LAND_TYPES : Finset String := {"Forest", "Island", "Mountain", "Plains", "Swamp"}

/-- Model of `" ".join(card_types)`: the embedding joins in sorted order, a deterministic stand-in
for Python's set iteration order (the join is only fed to `is_permanent`, which tests
membership of fixed tokens, so the order never matters). -/
def joinTypes (S : Finset String) : String :=
  String.intercalate " " (S.sort (· ≤ ·))

/-- The `is_permanent({"type_line": " ".join(card_types)})` test used by four effects. -/
def typesArePermanent (S : Finset String) : Bool := is_permanent_type_line (joinTypes S)

/-- The ordered effect table of `define_global_effects`, parameterized by the loaded
creature-type and nonbasic-land-type vocabularies: In Bolas's Clutches, Rimefeather Owl,
Enchanted Evening, Mycosynth Lattice, March of the Machines, Maskwood Nexus,
Life and Limb, Prismatic Omen, Omo. -/
def global_effects (allCreatureTypes nonbasicLandTypes : Finset String) :
    List (Finset String → Finset String) :=
  [ fun S => if typesArePermanent S then S ∪ {"Legendary"} else S,
    fun S => if typesArePermanent S then S ∪ {"Snow"} else S,
    fun S => if typesArePermanent S then S ∪ {"Enchantment"} else S,
    fun S => if typesArePermanent S then S ∪ {"Artifact"} else S,
    fun S => if "Artifact" ∈ S ∧ "Creature" ∉ S then S ∪ {"Creature"} else S,
    fun S => if "Creature" ∈ S then S ∪ allCreatureTypes else S,
    fun S => if "Forest" ∈ S ∨ "Saproling" ∈ S then S ∪ {"Creature", "Land", "Saproling", "Forest"} else S,
    fun S => if "Land" ∈ S then S ∪ BASIC_LAND_TYPES else S,
    fun S => if "Land" ∈ S then S ∪ BASIC_LAND_TYPES ∪ nonbasicLandTypes
             else if "Creature" ∈ S then S ∪ allCreatureTypes else S ]

/-- Embeds `MaximalTypesWithEffectsAggregator.apply_global_effects`: fold the effect
table over the working type set in table order. -/
def apply_global_effects (act nlt : Finset String) (S : Finset String) : Finset String :=
  (global_effects act nlt).foldl (fun s e => e s) S

/-! ## The Maximal-Type-Set Engine (type_aggregators.py) -/

abbrev TypeKey := Finset String

/-- State `maximal_types`: dict from canonical type-set key to representative card, in
insertion order.  A key is the `tuple(sorted(card_types))` canonical form of the set,
so distinct keys are exactly distinct `Finset`s. -/
abbrev AntichainMap := List (TypeKey × Card)

def acKeys (st : AntichainMap) : List TypeKey := st.map Prod.fst

/-- The antichain update at the end of `process_single_face` (lines 103-124), given the
already-canonicalized key.  The `Bool` is true when the step raised a `ValueError`
(from `get_sort_key` on a malformed date), in which case the state is unchanged — the
comparison happens before any mutation in that branch. -/
def update_antichain (st : AntichainMap) (key : TypeKey) (parent : Card) :
    AntichainMap × Bool :=
  match alistFind st key with
  | some existing =>
    match get_sort_key parent, get_sort_key existing with
    | .ok kp, .ok ke => (if sortKeyLt kp ke then alistInsert st key parent else st, false)
    | _, _ => (st, true)
  | none =>
    if st.all (fun p => decide ¬(key ⊆ p.1)) then
      (st.filter (fun p => decide ¬(p.1 ⊆ key)) ++ [(key, parent)], false)
    else (st, false)

/-- The type-set computation of `MaximalPrintedTypesAggregator.process_single_face`
(lines 92-103): `none` models the skip on a Token/Emblem face, otherwise the
canonical key after the special-case unions. -/
def printed_face_types (act nlt : Finset String) (face : Face) : Option TypeKey :=
  let t0 := extract_types face.type_line
  if "Token" ∈ t0 ∨ "Emblem" ∈ t0 then none
  else
    let t1 := if is_all_creature_types face then t0 ∪ act else t0
    let t2 := if face.name = some "Planar Nexus" then t1 ∪ nlt else t1
    some t2

/-- The same computation in `MaximalTypesWithEffectsAggregator.process_single_face`,
which additionally applies the global effects before canonicalizing. -/
def effects_face_types (act nlt : Finset String) (face : Face) : Option TypeKey :=
  (printed_face_types act nlt face).map (apply_global_effects act nlt)

/-- Embeds `process_single_face`, factored over the key computation shared by the two
variants. -/
def step_face (keyf : Face → Option TypeKey) (st : AntichainMap) (face : Face)
    (parent : Card) : AntichainMap × Bool :=
  match keyf face with
  | none => (st, false)
  | some key => update_antichain st key parent

/-- In the single-faced branch `process_single_face(card, card)` reads only these
fields of the card passed as the face. -/
def card_as_face (c : Card) : Face :=
  { name := c.name, type_line := c.type_line, keywords := c.keywords }

/-- The face loop of `process_card`: a raising face aborts the loop, keeping the
mutations of the earlier faces (the driver catches the exception). -/
def step_faces (keyf : Face → Option TypeKey) :
    AntichainMap → List Face → Card → AntichainMap × Bool
  | st, [], _ => (st, false)
  | st, f :: fs, parent =>
    if (step_face keyf st f parent).2 then ((step_face keyf st f parent).1, true)
    else step_faces keyf (step_face keyf st f parent).1 fs parent

/-- Embeds `process_card` of the maximal-types aggregators (traditional-card filter, then one
`process_single_face` per face, or one for the card itself). -/
def process_card_ac (keyf : Face → Option TypeKey) (st : AntichainMap) (card : Card) :
    AntichainMap × Bool :=
  if is_traditional_card card then
    match card.card_faces with
    | some faces => step_faces keyf st faces card
    | none => step_face keyf st (card_as_face card) card
  else (st, false)

/-- Feed a card stream through `process_card`, starting from the empty map.  The flag
records whether any card raised; the driver catches each exception and continues with
the state as `process_card` left it. -/
def run_ac (keyf : Face → Option TypeKey) (cards : List Card) : AntichainMap × Bool :=
  cards.foldl (fun acc c =>
    ((process_card_ac keyf acc.1 c).1, acc.2 || (process_card_ac keyf acc.1 c).2)) ([], false)

/-! ## The supercycle time aggregator (supercycle_aggregators.py) -/

/-- One cycle definition: `{name, cards, finished}`. -/
structure Cycle where
  name : String
  cards : List String
  finished : Bool
deriving DecidableEq

/-- State `card_dates`: earliest release date seen per card name, as proleptic ordinals
(`card_data`, which only feeds the display-only card objects, is not modelled). -/
abbrev DateMap := List (String × Nat)

/-- A truthy field value: `if name and released_at:` treats both absent and empty
strings as false. -/
def truthy (o : Option String) : Option String :=
  match o with
  | some s => if s = "" then none else some s
  | none => none

/-- Embeds `SupercycleTimeAggregator.process_card` (lines 98-106).  The `Bool` is true
when `date.fromisoformat` raised on a malformed `released_at`. -/
def supercycle_process_card (st : DateMap) (card : Card) : DateMap × Bool :=
  match truthy card.name, truthy card.released_at with
  | some n, some r =>
    match iso_date_parse r with
    | none => (st, true)
    | some ymd =>
      match alistFind st n with
      | none => (alistInsert st n (toOrdinal ymd), false)
      | some d0 =>
        if toOrdinal ymd < d0 then (alistInsert st n (toOrdinal ymd), false)
        else (st, false)
  | _, _ => (st, false)

def run_supercycle (cards : List Card) : DateMap × Bool :=
  cards.foldl (fun acc c =>
    ((supercycle_process_card acc.1 c).1, acc.2 || (supercycle_process_card acc.1 c).2))
    ([], false)

/-! ## Stable sorting (Python's sorted) -/

/-- Insert `x` after every element that strictly precedes it: with `prec` the strict
order of the sort, this is Python's stable `sorted`. -/
def insertStable {α : Type} (prec : α → α → Bool) (x : α) : List α → List α
  | [] => [x]
  | y :: ys => if prec y x then y :: insertStable prec x ys else x :: y :: ys

def sortStable {α : Type} (prec : α → α → Bool) : List α → List α
  | [] => []
  | x :: xs => insertStable prec x (sortStable prec xs)

/-! ## Finalization (get_sorted_data) -/

def listMin : List Nat → Nat
  | [] => 0
  | x :: xs => xs.foldl Nat.min x

def listMax : List Nat → Nat
  | [] => 0
  | x :: xs => xs.foldl Nat.max x

/-- One row of `SupercycleTimeAggregator.get_sorted_data`.  Dates are kept as ordinals
(`startDate`/`endDate` are rendered from them; `endOrd = none` renders as "Ongoing");
the display-only `cards`, `cardObjects` and formatted `time` fields are not modelled. -/
structure SupercycleRow where
  supercycle : String
  status : String
  startOrd : Nat
  endOrd : Option Nat
  days : Int
deriving DecidableEq

/-- Embeds `[self.card_dates.get(card) for card in cycle["cards"] if card in self.card_dates]`. -/
def matched_dates (st : DateMap) (cyc : Cycle) : List Nat :=
  cyc.cards.filterMap (alistFind st)

/-- The per-cycle body of `get_sorted_data` (lines 112-161): `none` when the cycle
matched no observed card; otherwise the earliest matched date to the latest matched
date (finished) or to today (unfinished). -/
def supercycle_row (today : Nat) (st : DateMap) (cyc : Cycle) : Option SupercycleRow :=
  if matched_dates st cyc = [] then none
  else
    some { supercycle := cyc.name,
           status := if cyc.finished then "Finished" else "Unfinished",
           startOrd := listMin (matched_dates st cyc),
           endOrd := if cyc.finished then some (listMax (matched_dates st cyc)) else none,
           days := ((if cyc.finished then listMax (matched_dates st cyc) else today : Nat) : Int)
             - (listMin (matched_dates st cyc) : Int) }

/-- Embeds `SupercycleTimeAggregator.get_sorted_data`: one row per cycle with at least
one matched card, sorted by descending day count (`reverse=True`, stable). -/
def supercycle_sorted_data (cycles : List Cycle) (st : DateMap) (today : Nat) :
    List SupercycleRow :=
  sortStable (fun a b => decide (b.days < a.days)) (cycles.filterMap (supercycle_row today st))

/-- The warning messages logged by `SupercycleTimeAggregator.get_sorted_data`: the
function body (lines 108-164) contains no logging call, so it emits none for any
input. -/
def supercycle_sorted_warnings (cycles : List Cycle) (st : DateMap) (today : Nat) :
    List String :=
  match cycles, st, today with
  | _, _, _ => []

/-- One row of the maximal-types reports (the display-only uri fields are not
modelled; the effects variant names its first column `originalTypes` but fills it with
the same `card.get("type_line", "")`). -/
structure TypeRow where
  types : String
  name : String
  set : String
  releaseDate : String
deriving DecidableEq

/-- Embeds `MaximalPrintedTypesAggregator.get_sorted_data` (and the textually identical
body of the effects variant): sort the entries by the representative's sort key —
raising if any stored card has a malformed date — and project each to a row. -/
def maximal_sorted_data (st : AntichainMap) : Except Unit (List TypeRow) :=
  match st.mapM (fun p => (get_sort_key p.2).map (fun k => (k, p.2))) with
  | .error e => .error e
  | .ok keyed =>
    .ok ((sortStable (fun a b => sortKeyLt a.1 b.1) keyed).map (fun p =>
      { types := p.2.type_line.getD "", name := p.2.name.getD "",
        set := p.2.set.getD "", releaseDate := p.2.released_at.getD "" }))

/-! ## The counting aggregators (count_aggregators.py) -/

/-- Embeds `card.get(field)` for the fields of the model (the configured CountAggregators use
only "name" and "set"). -/
def getField (card : Card) : String → Option String
  | "name" => card.name
  | "set" => card.set
  | "set_type" => card.set_type
  | "layout" => card.layout
  | "border_color" => card.border_color
  | "collector_number" => card.collector_number
  | "released_at" => card.released_at
  | "type_line" => card.type_line
  | "mana_cost" => card.mana_cost
  | "power" => card.power
  | "toughness" => card.toughness
  | _ => none

/-- State `CountAggregator.data`: counts per key tuple, in insertion order. -/
abbrev CountMap := List (List String × Nat)

/-- Embeds `CountAggregator.process_card` (the `cards` map of display links is not
modelled). -/
def count_process_card (key_fields : List String) (count_finishes : Bool)
    (st : CountMap) (card : Card) : CountMap :=
  match (key_fields.map (getField card)).mapM id with
  | none => st
  | some key =>
    let amt := if count_finishes then card.finishes.length else 1
    alistInsert st key ((alistFind st key).getD 0 + amt)

def run_count (key_fields : List String) (count_finishes : Bool) (cards : List Card) :
    CountMap :=
  cards.foldl (count_process_card key_fields count_finishes) []

/-- Embeds `CountAggregator.get_sorted_data`: rows by descending count, stable. -/
def count_sorted_data (st : CountMap) : List (List String × Nat) :=
  sortStable (fun a b => decide (b.2 < a.2)) st

/-- Embeds `MaxCollectorNumberBySetAggregator.process_card`: a purely numeric collector
number updates the per-set maximum. -/
def maxcn_process_card (st : List (String × Nat)) (card : Card) : List (String × Nat) :=
  match card.collector_number, card.set with
  | some cn, some k =>
    if cn ≠ "" ∧ cn.data.all isDigitChar then
      alistInsert st k (Nat.max ((alistFind st k).getD 0)
        (cn.data.foldl (fun a c => 10 * a + digitVal c) 0))
    else st
  | _, _ => st

def run_maxcn (cards : List Card) : List (String × Nat) :=
  cards.foldl maxcn_process_card []

/-- Embeds `MaxCollectorNumberBySetAggregator.get_sorted_data`. -/
def maxcn_sorted_data (st : List (String × Nat)) : List (String × Nat) :=
  sortStable (fun a b => decide (b.2 < a.2)) st

/-! ## Run-and-finalize pipelines (per aggregator) -/

def pipeline_printed (act nlt : Finset String) (cards : List Card) :
    Except Unit (List TypeRow) :=
  maximal_sorted_data (run_ac (printed_face_types act nlt) cards).1

def pipeline_effects (act nlt : Finset String) (cards : List Card) :
    Except Unit (List TypeRow) :=
  maximal_sorted_data (run_ac (effects_face_types act nlt) cards).1

def pipeline_supercycle (cycles : List Cycle) (today : Nat) (cards : List Card) :
    List SupercycleRow :=
  supercycle_sorted_data cycles (run_supercycle cards).1 today

def pipeline_count (key_fields : List String) (count_finishes : Bool)
    (cards : List Card) : List (List String × Nat) :=
  count_sorted_data (run_count key_fields count_finishes cards)

def pipeline_maxcn (cards : List Card) : List (String × Nat) :=
  maxcn_sorted_data (run_maxcn cards)

/-! ## Predicates used by the theorems -/

/-- The integer obtained by keeping the digit characters of `s` in order (0 when there
are none): the spec-side reading of the collector-number parse. -/
def digits_value (s : String) : Nat :=
  (s.data.filter isDigitChar).foldl (fun a c => 10 * a + digitVal c) 0

/-- The card's `released_at`, when present and nonempty, parses as a date — the
condition under which `date.fromisoformat` cannot raise. -/
def wellDated (c : Card) : Prop :=
  match c.released_at with
  | none => True
  | some s => s = "" ∨ (iso_date_parse s).isSome

instance (c : Card) : Decidable (wellDated c) := by
  unfold wellDated
  cases c.released_at <;> infer_instance

/-- All representative cards stored in an antichain map are well-dated. -/
def storedWellDated (st : AntichainMap) : Prop := ∀ p ∈ st, wellDated p.2

/-- The antichain invariant on the stored state: pairwise, neither key is a subset of
the other. -/
def ACInv (st : AntichainMap) : Prop :=
  st.Pairwise (fun p q => ¬ p.1 ⊆ q.1 ∧ ¬ q.1 ⊆ p.1)

/-! ## Helper lemmas -/

theorem digitVal_le_nine {c : Char} (h : isDigitChar c = true) : digitVal c ≤ 9 := by
  simp only [isDigitChar, Bool.and_eq_true, decide_eq_true_eq] at h
  unfold digitVal
  omega

theorem foldl_digits_lt : ∀ (l : List Char) (a : Nat), (∀ c ∈ l, isDigitChar c = true) →
    l.foldl (fun a c => 10 * a + digitVal c) a < (a + 1) * 10 ^ l.length := by
  intro l
  induction l with
  | nil => intro a _; simp
  | cons c cs ih =>
    intro a h
    have hv : digitVal c ≤ 9 := digitVal_le_nine (h c (by simp))
    have h1 := ih (10 * a + digitVal c) (fun d hd => h d (by simp [hd]))
    calc (c :: cs).foldl (fun a c => 10 * a + digitVal c) a
        = cs.foldl (fun a c => 10 * a + digitVal c) (10 * a + digitVal c) := rfl
      _ < (10 * a + digitVal c + 1) * 10 ^ cs.length := h1
      _ ≤ ((a + 1) * 10) * 10 ^ cs.length := by
          have : 10 * a + digitVal c + 1 ≤ (a + 1) * 10 := by omega
          exact Nat.mul_le_mul_right _ this
      _ = (a + 1) * 10 ^ (cs.length + 1) := by ring
      _ = (a + 1) * 10 ^ (c :: cs).length := by simp

theorem parseNatDigits_bound {l : List Char} {n : Nat} (h : parseNatDigits l = some n) :
    n < 10 ^ l.length := by
  unfold parseNatDigits at h
  split at h
  · rename_i hc
    have hd : ∀ c ∈ l, isDigitChar c = true := by
      intro c hcl
      exact List.all_eq_true.mp hc.2 c hcl
    have := foldl_digits_lt l 0 hd
    simp only [Option.some.injEq] at h
    omega
  · exact absurd h (by simp)

theorem daysInMonth_le_31 (y m : Nat) : daysInMonth y m ≤ 31 := by
  unfold daysInMonth
  split_ifs <;> simp

theorem iso_date_parse_le_max {s : String} {ymd : Nat × Nat × Nat}
    (h : iso_date_parse s = some ymd) : dcode ymd ≤ maxDateCode := by
  unfold iso_date_parse at h
  split at h
  · split at h
    · split at h
      · rename_i y m d hy hm hd
        split at h
        · rename_i hcond
          obtain ⟨rfl⟩ := Option.some.injEq _ _ ▸ h
          have hy4 : y < 10 ^ 4 := by
            have := parseNatDigits_bound hy
            simpa using this
          have hm2 : m ≤ 12 := hcond.2.2.1
          have hd2 : d ≤ 31 := le_trans hcond.2.2.2.2 (daysInMonth_le_31 y m)
          unfold dcode maxDateCode
          simp only
          omega
        · exact absurd h (by simp)
      · exact absurd h (by simp)
    · exact absurd h (by simp)
  · exact absurd h (by simp)

/-! ## Claim theorems -/

/-- C5: `get_sort_key` returns the 4-tuple (release date, set code, parsed collector
number, original collector-number string); a missing release date yields the maximum
possible date (no parsable date exceeds it); the parsed collector number is the integer
formed by stripping all non-digit characters, 0 when no digits remain; and two cards
with equal date and set and collector numbers "123a" and "124" compare strictly. -/
theorem c5_sort_key :
    (∀ c : Card, c.released_at = none →
      get_sort_key c = .ok (maxDateCode, c.set.getD "",
        parse_collector_number (c.collector_number.getD ""), c.collector_number.getD ""))
    ∧ (∀ (s : String) (ymd : Nat × Nat × Nat), iso_date_parse s = some ymd →
        dcode ymd ≤ maxDateCode)
    ∧ (∀ s : String, parse_collector_number s = digits_value s)
    ∧ (∀ s : String, s.data.filter isDigitChar = [] → parse_collector_number s = 0)
    ∧ (get_sort_key { released_at := some "2020-01-01", set := some "abc",
                      collector_number := some "123a" } = .ok (20200101, "abc", 123, "123a")
        ∧ get_sort_key { released_at := some "2020-01-01", set := some "abc",
                         collector_number := some "124" } = .ok (20200101, "abc", 124, "124")
        ∧ sortKeyLt (20200101, "abc", 123, "123a") (20200101, "abc", 124, "124") = true) := by
  refine ⟨?_, fun s ymd h => iso_date_parse_le_max h, ?_, ?_, rfl, rfl, by decide⟩
  · intro c h
    unfold get_sort_key
    rw [h]
  · intro s
    by_cases h : s.data.filter isDigitChar = [] <;>
      simp [parse_collector_number, digits_value, h]
  · intro s h
    simp [parse_collector_number, h]

theorem c5_sort_key_witness :
    ({ released_at := none, set := some "abc", collector_number := some "7b" } : Card).released_at = none
    ∧ get_sort_key { released_at := none, set := some "abc", collector_number := some "7b" }
        = .ok (maxDateCode, "abc", 7, "7b") :=
  ⟨rfl, c5_sort_key.1 { released_at := none, set := some "abc", collector_number := some "7b" } rfl⟩

/-- C8: `extract_types` on a card with type line "Legendary Creature — Time Lord"
yields exactly {Legendary, Creature, Time Lord} (the two-word token is not split), and
an empty or missing type line yields the empty set. -/
theorem c8_extract_types_concrete :
    extract_types (some "Legendary Creature — Time Lord")
      = {"Legendary", "Creature", "Time Lord"}
    ∧ extract_types (some "") = ∅
    ∧ extract_types none = ∅ := by
  refine ⟨by decide, by decide, by decide⟩

/-- C4: processing the same card stream twice in the same order yields identical
finalized output from every embedded aggregator — the per-card processing and
finalization are pure functions of the stream. -/
theorem c4_determinism (act nlt : Finset String) (cycles : List Cycle) (today : Nat)
    (key_fields : List String) (count_finishes : Bool) (cards cards' : List Card)
    (h : cards = cards') :
    pipeline_printed act nlt cards = pipeline_printed act nlt cards'
    ∧ pipeline_effects act nlt cards = pipeline_effects act nlt cards'
    ∧ pipeline_supercycle cycles today cards = pipeline_supercycle cycles today cards'
    ∧ pipeline_count key_fields count_finishes cards
        = pipeline_count key_fields count_finishes cards'
    ∧ pipeline_maxcn cards = pipeline_maxcn cards' := by
  subst h
  exact ⟨rfl, rfl, rfl, rfl, rfl⟩

theorem c4_determinism_witness :
    pipeline_count ["name"] false [{ name := some "X" }] = pipeline_count ["name"] false [{ name := some "X" }] :=
  (c4_determinism ∅ ∅ [] 0 ["name"] false [{ name := some "X" }] [{ name := some "X" }] rfl).2.2.2.1

/-- C10: `apply_global_effects` is extensive — every effect in the table only unions
tokens into the working set, so the result always contains the input set. -/
theorem c10_effects_extensive (act nlt : Finset String) (S : Finset String) :
    S ⊆ apply_global_effects act nlt S := by
  have hext : ∀ e ∈ global_effects act nlt, ∀ T : Finset String, T ⊆ e T := by
    intro e he T x hx
    simp only [global_effects, List.mem_cons, List.not_mem_nil, or_false] at he
    rcases he with rfl | rfl | rfl | rfl | rfl | rfl | rfl | rfl | rfl <;>
      · dsimp only
        split_ifs <;> simp [Finset.mem_union, hx]
  have main : ∀ (L : List (Finset String → Finset String)) (T : Finset String),
      (∀ e ∈ L, ∀ T : Finset String, T ⊆ e T) →
      T ⊆ L.foldl (fun s e => e s) T := by
    intro L
    induction L with
    | nil => intro T _; exact subset_rfl
    | cons e L ih =>
      intro T hL
      have h1 : T ⊆ e T := hL e (by simp) T
      have h2 := ih (e T) (fun f hf => hL f (by simp [hf]))
      exact h1.trans h2
  exact main _ S hext

/-! ## Helper lemmas for the stable sort and the time-span rows (C9) -/

theorem insertStable_perm {α : Type} (prec : α → α → Bool) (x : α) :
    ∀ l : List α, (insertStable prec x l).Perm (x :: l) := by
  intro l
  induction l with
  | nil => exact List.Perm.refl _
  | cons y ys ih =>
    unfold insertStable
    split
    · exact (List.Perm.cons y ih).trans (List.Perm.swap x y ys)
    · exact List.Perm.refl _

theorem sortStable_perm {α : Type} (prec : α → α → Bool) :
    ∀ l : List α, (sortStable prec l).Perm l := by
  intro l
  induction l with
  | nil => exact List.Perm.refl _
  | cons x xs ih =>
    unfold sortStable
    exact (insertStable_perm prec x _).trans (List.Perm.cons x ih)

theorem pairwise_insertStable {α : Type} (key : α → Int) (x : α) :
    ∀ l : List α, l.Pairwise (fun a b => key b ≤ key a) →
      (insertStable (fun a b => decide (key b < key a)) x l).Pairwise
        (fun a b => key b ≤ key a) := by
  intro l
  induction l with
  | nil => intro _; exact List.pairwise_singleton _ _
  | cons y ys ih =>
    intro h
    rw [List.pairwise_cons] at h
    unfold insertStable
    split
    · rename_i hyx
      have hxy : key x < key y := by simpa using hyx
      rw [List.pairwise_cons]
      refine ⟨?_, ih h.2⟩
      intro b hb
      have hmem := (insertStable_perm _ x ys).mem_iff.mp hb
      rcases List.mem_cons.mp hmem with rfl | hbys
      · exact le_of_lt hxy
      · exact h.1 b hbys
    · rename_i hyx
      have hyx2 : key y ≤ key x := not_lt.mp (by simpa using hyx)
      rw [List.pairwise_cons]
      refine ⟨?_, List.pairwise_cons.mpr ⟨h.1, h.2⟩⟩
      intro b hb
      rcases List.mem_cons.mp hb with rfl | hbys
      · exact hyx2
      · exact le_trans (h.1 b hbys) hyx2

theorem pairwise_sortStable {α : Type} (key : α → Int) :
    ∀ l : List α, (sortStable (fun a b => decide (key b < key a)) l).Pairwise
      (fun a b => key b ≤ key a) := by
  intro l
  induction l with
  | nil => exact List.Pairwise.nil
  | cons x xs ih =>
    unfold sortStable
    exact pairwise_insertStable key x _ ih

theorem supercycle_row_name (today : Nat) (st : DateMap) (cyc : Cycle)
    (r : SupercycleRow) (h : supercycle_row today st cyc = some r) :
    r.supercycle = cyc.name := by
  unfold supercycle_row at h
  split at h
  · exact absurd h (by simp)
  · obtain rfl := (Option.some.injEq _ _ ▸ h).symm
    rfl

theorem filterMap_rows_name_ne (today : Nat) (st : DateMap) (nm : String) :
    ∀ (cycles : List Cycle), (∀ c ∈ cycles, c.name ≠ nm) →
      ((cycles.filterMap (supercycle_row today st)).filter
        (fun r => decide (r.supercycle = nm))) = [] := by
  intro cycles
  induction cycles with
  | nil => intro _; rfl
  | cons c0 rest ih =>
    intro h
    rw [List.filterMap_cons]
    cases hrow : supercycle_row today st c0 with
    | none => exact ih (fun c hc => h c (by simp [hc]))
    | some r =>
      rw [List.filter_cons_of_neg]
      · exact ih (fun c hc => h c (by simp [hc]))
      · simp [supercycle_row_name today st c0 r hrow, h c0 (by simp)]

theorem filter_rows_eq (today : Nat) (st : DateMap) :
    ∀ (cycles : List Cycle) (cyc : Cycle), cyc ∈ cycles →
      (cycles.map Cycle.name).Nodup →
      ((cycles.filterMap (supercycle_row today st)).filter
        (fun r => decide (r.supercycle = cyc.name)))
        = (supercycle_row today st cyc).toList := by
  intro cycles
  induction cycles with
  | nil => intro cyc hmem _; exact absurd hmem (by simp)
  | cons c0 rest ih =>
    intro cyc hmem hnd
    rw [List.map_cons, List.nodup_cons] at hnd
    rcases List.mem_cons.mp hmem with rfl | hrest
    · rw [List.filterMap_cons]
      have hnames : ∀ c ∈ rest, c.name ≠ cyc.name := by
        intro c hc hcn
        exact hnd.1 (hcn ▸ List.mem_map_of_mem Cycle.name hc)
      cases hrow : supercycle_row today st cyc with
      | none =>
        rw [filterMap_rows_name_ne today st cyc.name rest hnames]
        rfl
      | some r =>
        rw [List.filter_cons_of_pos]
        · rw [filterMap_rows_name_ne today st cyc.name rest hnames]
          rfl
        · simp [supercycle_row_name today st cyc r hrow]
    · have hne : c0.name ≠ cyc.name := by
        intro he
        exact hnd.1 (he ▸ List.mem_map_of_mem Cycle.name hrest)
      rw [List.filterMap_cons]
      cases hrow : supercycle_row today st c0 with
      | none => exact ih cyc hrest hnd.2
      | some r =>
        rw [List.filter_cons_of_neg]
        · exact ih cyc hrest hnd.2
        · simp [supercycle_row_name today st c0 r hrow, hne]

/-! ## Helper lemmas for the raise analysis (C3) -/

theorem get_sort_key_ok (c : Card) (h : wellDated c) : ∃ k, get_sort_key c = .ok k := by
  unfold wellDated at h
  cases hr : c.released_at with
  | none => exact ⟨(maxDateCode, c.set.getD "", parse_collector_number (c.collector_number.getD ""),
      c.collector_number.getD ""), by simp [get_sort_key, hr]⟩
  | some s =>
    rw [hr] at h
    by_cases hs : s = ""
    · exact ⟨(maxDateCode, c.set.getD "", parse_collector_number (c.collector_number.getD ""),
        c.collector_number.getD ""), by simp [get_sort_key, hr, hs]⟩
    · rcases h with h | h
      · exact absurd h hs
      · obtain ⟨ymd, hp⟩ := Option.isSome_iff_exists.mp h
        exact ⟨(dcode ymd, c.set.getD "", parse_collector_number (c.collector_number.getD ""),
          c.collector_number.getD ""), by simp [get_sort_key, hr, hs, hp]⟩

theorem alistFind_mem {α β : Type} [DecidableEq α] :
    ∀ (l : List (α × β)) (k : α) (v : β), alistFind l k = some v → (k, v) ∈ l := by
  intro l
  induction l with
  | nil => intro k v h; exact absurd h (by simp [alistFind])
  | cons p rest ih =>
    intro k v h
    obtain ⟨a, b⟩ := p
    simp only [alistFind] at h
    split at h
    · rename_i heq
      obtain rfl := Option.some.injEq _ _ ▸ h
      subst heq
      exact List.mem_cons_self _ _
    · exact List.mem_cons_of_mem _ (ih k v h)

theorem alistInsert_mem_or {α β : Type} [DecidableEq α] (l : List (α × β)) (k : α) (v : β) :
    ∀ p ∈ alistInsert l k v, p = (k, v) ∨ p ∈ l := by
  intro p hp
  unfold alistInsert at hp
  split at hp
  · obtain ⟨q, hq, rfl⟩ := List.mem_map.mp hp
    by_cases h : q.1 = k
    · left; simp [h]
    · right; simpa [h] using hq
  · rcases List.mem_append.mp hp with h | h
    · right; exact h
    · left; simpa using h

theorem update_antichain_ok (st : AntichainMap) (key : TypeKey) (parent : Card)
    (hp : wellDated parent) (hst : storedWellDated st) :
    (update_antichain st key parent).2 = false
    ∧ storedWellDated (update_antichain st key parent).1 := by
  cases hfind : alistFind st key with
  | some existing =>
    have he : wellDated existing := hst _ (alistFind_mem st key existing hfind)
    obtain ⟨kp, hkp⟩ := get_sort_key_ok parent hp
    obtain ⟨ke, hke⟩ := get_sort_key_ok existing he
    simp only [update_antichain, hfind, hkp, hke]
    constructor
    · trivial
    · split
      · intro p hpmem
        rcases alistInsert_mem_or st key parent p hpmem with rfl | h
        · exact hp
        · exact hst _ h
      · exact hst
  | none =>
    simp only [update_antichain, hfind]
    constructor
    · first
      | trivial
      | (split <;> rfl)
    · split
      · intro p hpmem
        rcases List.mem_append.mp hpmem with h | h
        · exact hst _ (List.mem_of_mem_filter h)
        · obtain rfl : p = (key, parent) := by simpa using h
          exact hp
      · exact hst

theorem step_face_ok (keyf : Face → Option TypeKey) (st : AntichainMap) (face : Face)
    (parent : Card) (hp : wellDated parent) (hst : storedWellDated st) :
    (step_face keyf st face parent).2 = false
    ∧ storedWellDated (step_face keyf st face parent).1 := by
  unfold step_face
  cases keyf face with
  | none => exact ⟨rfl, hst⟩
  | some key => exact update_antichain_ok st key parent hp hst

theorem step_faces_ok (keyf : Face → Option TypeKey) :
    ∀ (faces : List Face) (st : AntichainMap) (parent : Card), wellDated parent →
      storedWellDated st →
      (step_faces keyf st faces parent).2 = false
      ∧ storedWellDated (step_faces keyf st faces parent).1 := by
  intro faces
  induction faces with
  | nil => intro st parent _ hst; exact ⟨rfl, hst⟩
  | cons f fs ih =>
    intro st parent hp hst
    have h1 := step_face_ok keyf st f parent hp hst
    simp only [step_faces, h1.1, Bool.false_eq_true, if_false]
    exact ih _ parent hp h1.2

theorem process_card_ac_ok (keyf : Face → Option TypeKey) (st : AntichainMap)
    (card : Card) (hp : wellDated card) (hst : storedWellDated st) :
    (process_card_ac keyf st card).2 = false
    ∧ storedWellDated (process_card_ac keyf st card).1 := by
  unfold process_card_ac
  split
  · cases card.card_faces with
    | some faces => exact step_faces_ok keyf faces st card hp hst
    | none => exact step_face_ok keyf st (card_as_face card) card hp hst
  · exact ⟨rfl, hst⟩

theorem run_ac_ok (keyf : Face → Option TypeKey) :
    ∀ (cards : List Card) (acc : AntichainMap × Bool), acc.2 = false →
      storedWellDated acc.1 → (∀ c ∈ cards, wellDated c) →
      (cards.foldl (fun acc c =>
        ((process_card_ac keyf acc.1 c).1, acc.2 || (process_card_ac keyf acc.1 c).2)) acc).2
        = false := by
  intro cards
  induction cards with
  | nil => intro acc h _ _; exact h
  | cons c cs ih =>
    intro acc hacc hst hcards
    have h1 := process_card_ac_ok keyf acc.1 c (hcards c (by simp)) hst
    simp only [List.foldl_cons]
    exact ih _ (by simp [hacc, h1.1]) h1.2 (fun d hd => hcards d (by simp [hd]))

theorem supercycle_process_card_ok (st : DateMap) (card : Card) (hp : wellDated card) :
    (supercycle_process_card st card).2 = false := by
  cases ht : truthy card.name with
  | none => simp [supercycle_process_card, ht]
  | some n =>
    cases hrel : truthy card.released_at with
    | none => simp [supercycle_process_card, ht, hrel]
    | some r =>
      have hparse : ∃ ymd, iso_date_parse r = some ymd := by
        unfold wellDated at hp
        unfold truthy at hrel
        cases hcr : card.released_at with
        | none => rw [hcr] at hrel; exact absurd hrel (by simp)
        | some s =>
          rw [hcr] at hrel hp
          dsimp only at hrel hp
          by_cases hs : s = ""
          · rw [if_pos hs] at hrel; exact absurd hrel (by simp)
          · rw [if_neg hs] at hrel
            obtain rfl : s = r := by simpa using hrel
            rcases hp with h | h
            · exact absurd h hs
            · exact Option.isSome_iff_exists.mp h
      obtain ⟨ymd, hparse⟩ := hparse
      simp only [supercycle_process_card, ht, hrel, hparse]
      cases alistFind st n with
      | none => rfl
      | some d0 => simp only []; split <;> rfl

theorem run_supercycle_ok :
    ∀ (cards : List Card) (acc : DateMap × Bool), acc.2 = false →
      (∀ c ∈ cards, wellDated c) →
      (cards.foldl (fun acc c =>
        ((supercycle_process_card acc.1 c).1, acc.2 || (supercycle_process_card acc.1 c).2))
        acc).2 = false := by
  intro cards
  induction cards with
  | nil => intro acc h _; exact h
  | cons c cs ih =>
    intro acc hacc hcards
    simp only [List.foldl_cons]
    exact ih _ (by simp [hacc, supercycle_process_card_ok acc.1 c (hcards c (by simp))])
      (fun d hd => hcards d (by simp [hd]))

/-! ## C3 -/

/-- C3 counterexample: the claim says `process_card` never raises on any record with
missing or malformed fields, but `SupercycleTimeAggregator.process_card` calls
`date.fromisoformat(released_at)` directly (line 102), which raises `ValueError` on a
card whose `released_at` is present but not a date. -/
theorem c3_no_raise_counterexample :
    (supercycle_process_card [] { name := some "A", released_at := some "bad" }).2 = true := rfl

/-- C3 as amended: missing fields are tolerated via defaults and never raise, and
processing raises in no embedded aggregator as long as every present `released_at`
string is a well-formed date; only a present malformed date string makes
`process_card` raise (which the driver catches per aggregator per card). -/
theorem c3_no_raise_amended (act nlt : Finset String) (cards : List Card)
    (h : ∀ c ∈ cards, wellDated c) :
    (run_ac (printed_face_types act nlt) cards).2 = false
    ∧ (run_ac (effects_face_types act nlt) cards).2 = false
    ∧ (run_supercycle cards).2 = false := by
  refine ⟨?_, ?_, ?_⟩
  · exact run_ac_ok _ cards ([], false) rfl (by intro p hp; exact absurd hp (by simp)) h
  · exact run_ac_ok _ cards ([], false) rfl (by intro p hp; exact absurd hp (by simp)) h
  · exact run_supercycle_ok cards ([], false) rfl h

/-! ## Helper lemmas for the antichain invariant (C1) -/

theorem acInv_alistInsert (st : AntichainMap) (key : TypeKey) (parent : Card)
    (hfind : (alistFind st key).isSome) (h : ACInv st) :
    ACInv (alistInsert st key parent) := by
  unfold alistInsert
  rw [if_pos hfind]
  refine List.Pairwise.map _ ?_ h
  intro a b hab
  have ha2 : (if a.1 = key then (key, parent) else a).1 = a.1 := by
    by_cases ha : a.1 = key <;> simp [ha]
  have hb2 : (if b.1 = key then (key, parent) else b).1 = b.1 := by
    by_cases hb : b.1 = key <;> simp [hb]
  rw [ha2, hb2]
  exact hab

theorem acInv_update (st : AntichainMap) (key : TypeKey) (parent : Card)
    (h : ACInv st) : ACInv (update_antichain st key parent).1 := by
  cases hfind : alistFind st key with
  | some existing =>
    simp only [update_antichain, hfind]
    have hsome : (alistFind st key).isSome := by rw [hfind]; rfl
    cases get_sort_key parent <;> cases get_sort_key existing <;> simp only []
    · exact h
    · exact h
    · exact h
    · split
      · exact acInv_alistInsert st key parent hsome h
      · exact h
  | none =>
    simp only [update_antichain, hfind]
    split
    · rename_i hall
      rw [ACInv, List.pairwise_append]
      refine ⟨List.Pairwise.filter _ h, List.pairwise_singleton _ _, ?_⟩
      intro a ha b hb
      obtain rfl : b = (key, parent) := by simpa using hb
      have hmem := List.mem_of_mem_filter ha
      have h1 : ¬ a.1 ⊆ key := by
        have := List.of_mem_filter ha
        simpa using this
      have h2 : ¬ key ⊆ a.1 := by
        have := List.all_eq_true.mp hall a hmem
        simpa using this
      exact ⟨h1, h2⟩
    · exact h

theorem acInv_step_face (keyf : Face → Option TypeKey) (st : AntichainMap) (face : Face)
    (parent : Card) (h : ACInv st) : ACInv (step_face keyf st face parent).1 := by
  unfold step_face
  cases keyf face with
  | none => exact h
  | some key => exact acInv_update st key parent h

theorem acInv_step_faces (keyf : Face → Option TypeKey) :
    ∀ (faces : List Face) (st : AntichainMap) (parent : Card), ACInv st →
      ACInv (step_faces keyf st faces parent).1 := by
  intro faces
  induction faces with
  | nil => intro st parent h; exact h
  | cons f fs ih =>
    intro st parent h
    have h1 := acInv_step_face keyf st f parent h
    unfold step_faces
    split
    · exact h1
    · exact ih _ parent h1

theorem acInv_process_card (keyf : Face → Option TypeKey) (st : AntichainMap)
    (card : Card) (h : ACInv st) : ACInv (process_card_ac keyf st card).1 := by
  unfold process_card_ac
  split
  · cases card.card_faces with
    | some faces => exact acInv_step_faces keyf faces st card h
    | none => exact acInv_step_face keyf st (card_as_face card) card h
  · exact h

theorem acInv_run (keyf : Face → Option TypeKey) :
    ∀ (cards : List Card) (acc : AntichainMap × Bool), ACInv acc.1 →
      ACInv (cards.foldl (fun acc c =>
        ((process_card_ac keyf acc.1 c).1, acc.2 || (process_card_ac keyf acc.1 c).2)) acc).1 := by
  intro cards
  induction cards with
  | nil => intro acc h; exact h
  | cons c cs ih =>
    intro acc h
    simp only [List.foldl_cons]
    exact ih _ (acInv_process_card keyf acc.1 c h)

theorem acInv_keys (st : AntichainMap) (h : ACInv st) :
    ∀ A B, A ∈ acKeys st → B ∈ acKeys st → A ≠ B → ¬ A ⊆ B ∧ ¬ B ⊆ A := by
  have hpw : (acKeys st).Pairwise (fun a b => ¬ a ⊆ b ∧ ¬ b ⊆ a) := by
    unfold acKeys
    exact List.pairwise_map.mpr h
  intro A B hA hB hne
  have hsymm : Symmetric (fun a b : TypeKey => ¬ a ⊆ b ∧ ¬ b ⊆ a) := by
    intro a b hab
    exact ⟨hab.2, hab.1⟩
  exact List.Pairwise.forall hsymm hpw hA hB hne

/-! ## Helper lemmas for the update rules (C2) -/

theorem acKeys_alistInsert (st : AntichainMap) (key : TypeKey) (v : Card)
    (h : (alistFind st key).isSome) : acKeys (alistInsert st key v) = acKeys st := by
  unfold alistInsert
  rw [if_pos h]
  unfold acKeys
  rw [List.map_map]
  refine List.map_congr_left ?_
  intro p _
  by_cases hp : p.1 = key <;> simp [hp]

theorem alistFind_replace {α β : Type} [DecidableEq α] :
    ∀ (l : List (α × β)) (k : α) (v : β), (alistFind l k).isSome →
      alistFind (l.map (fun p => if p.1 = k then (k, v) else p)) k = some v := by
  intro l
  induction l with
  | nil => intro k v h; exact absurd h (by simp [alistFind])
  | cons p rest ih =>
    intro k v h
    obtain ⟨a, b⟩ := p
    by_cases ha : a = k
    · subst ha
      simp only [List.map_cons]
      simp [alistFind]
    · have h2 : (alistFind rest k).isSome := by
        simpa [alistFind, ha] using h
      simp only [List.map_cons]
      rw [show (if (a, b).1 = k then (k, v) else (a, b)) = (a, b) from if_neg ha]
      simp only [alistFind]
      rw [if_neg ha]
      exact ih k v h2

theorem alistFind_eq_none_iff {α β : Type} [DecidableEq α] :
    ∀ (l : List (α × β)) (k : α), alistFind l k = none ↔ ∀ p ∈ l, p.1 ≠ k := by
  intro l
  induction l with
  | nil => intro k; simp [alistFind]
  | cons p rest ih =>
    intro k
    obtain ⟨a, b⟩ := p
    by_cases ha : a = k <;> simp [alistFind, ha, ih]

theorem alistFind_append_of_none {α β : Type} [DecidableEq α] :
    ∀ (l₁ l₂ : List (α × β)) (k : α), alistFind l₁ k = none →
      alistFind (l₁ ++ l₂) k = alistFind l₂ k := by
  intro l₁
  induction l₁ with
  | nil => intro l₂ k _; rfl
  | cons p rest ih =>
    intro l₂ k h
    obtain ⟨a, b⟩ := p
    by_cases ha : a = k
    · exact absurd h (by simp [alistFind, ha])
    · have h2 : alistFind rest k = none := by simpa [alistFind, ha] using h
      simpa [alistFind, ha] using ih l₂ k h2

theorem map_fst_filter_subset (key : TypeKey) :
    ∀ (l : AntichainMap),
      (l.filter (fun p => decide ¬(p.1 ⊆ key))).map Prod.fst
        = (l.map Prod.fst).filter (fun k => decide ¬(k ⊆ key)) := by
  intro l
  induction l with
  | nil => rfl
  | cons p rest ih =>
    simp only [decide_not] at ih
    by_cases hp : p.1 ⊆ key <;> simp [List.filter_cons, hp, ih]

/-! ## C2 -/

/-- C2: on any antichain-map state and canonicalized key, the antichain update behaves
as specified — when the key exists, the representative is replaced exactly when the
incoming card's sort key is strictly smaller and the key set is unchanged; when it does
not, the key is inserted exactly when no existing key is a superset, deleting every
existing subset key first and mapping the candidate to the incoming card. -/
theorem c2_update_rules (st : AntichainMap) (key : TypeKey) (parent : Card) :
    (∀ e kp ke, alistFind st key = some e → get_sort_key parent = .ok kp →
      get_sort_key e = .ok ke →
      acKeys (update_antichain st key parent).1 = acKeys st
      ∧ alistFind (update_antichain st key parent).1 key
          = some (if sortKeyLt kp ke then parent else e))
    ∧ (alistFind st key = none →
        ((∃ p ∈ st, key ⊆ p.1) → (update_antichain st key parent).1 = st)
        ∧ ((∀ p ∈ st, ¬ key ⊆ p.1) →
            acKeys (update_antichain st key parent).1
              = (acKeys st).filter (fun k => decide ¬(k ⊆ key)) ++ [key]
            ∧ alistFind (update_antichain st key parent).1 key = some parent)) := by
  constructor
  · intro e kp ke hfind hkp hke
    have hsome : (alistFind st key).isSome := by rw [hfind]; rfl
    simp only [update_antichain, hfind, hkp, hke]
    by_cases hlt : sortKeyLt kp ke
    · rw [if_pos hlt, if_pos hlt]
      refine ⟨acKeys_alistInsert st key parent hsome, ?_⟩
      unfold alistInsert
      rw [if_pos hsome]
      exact alistFind_replace st key parent hsome
    · rw [if_neg hlt, if_neg hlt]
      exact ⟨rfl, hfind⟩
  · intro hfind
    constructor
    · intro ⟨p, hp, hsub⟩
      have hall : ¬ (st.all (fun p => decide ¬(key ⊆ p.1)) = true) := by
        intro hall
        have h2 := List.all_eq_true.mp hall p hp
        simp only [decide_eq_true_eq] at h2
        exact h2 hsub
      simp only [update_antichain, hfind]
      rw [if_neg hall]
    · intro hmax
      have hall : st.all (fun p => decide ¬(key ⊆ p.1)) = true :=
        List.all_eq_true.mpr (fun p hp => by simpa using hmax p hp)
      simp only [update_antichain, hfind]
      rw [if_pos hall]
      constructor
      · show acKeys (st.filter (fun p => decide ¬(p.1 ⊆ key)) ++ [(key, parent)]) = _
        unfold acKeys
        rw [List.map_append, map_fst_filter_subset key st]
        rfl
      · show alistFind (st.filter (fun p => decide ¬(p.1 ⊆ key)) ++ [(key, parent)]) key = _
        rw [alistFind_append_of_none]
        · simp [alistFind]
        · rw [alistFind_eq_none_iff]
          intro p hp
          exact (alistFind_eq_none_iff st key).mp hfind p (List.mem_of_mem_filter hp)

theorem c2_update_rules_witness :
    (acKeys (update_antichain [({"Artifact"}, { name := some "X" })] {"Artifact"}
        { name := some "Y", released_at := some "2020-01-01" }).1
      = acKeys [(({"Artifact"} : TypeKey), ({ name := some "X" } : Card))]
    ∧ alistFind (update_antichain [({"Artifact"}, { name := some "X" })] {"Artifact"}
        { name := some "Y", released_at := some "2020-01-01" }).1 {"Artifact"}
      = some (if sortKeyLt (20200101, "", 0, "") (maxDateCode, "", 0, "")
          then { name := some "Y", released_at := some "2020-01-01" }
          else { name := some "X" }))
    ∧ (acKeys (update_antichain [({"Artifact"}, { name := some "X" })] {"Creature"}
        { name := some "Y", released_at := some "2020-01-01" }).1
      = (acKeys [(({"Artifact"} : TypeKey), ({ name := some "X" } : Card))]).filter
          (fun k => decide ¬(k ⊆ {"Creature"})) ++ [{"Creature"}]
    ∧ alistFind (update_antichain [({"Artifact"}, { name := some "X" })] {"Creature"}
        { name := some "Y", released_at := some "2020-01-01" }).1 {"Creature"}
      = some { name := some "Y", released_at := some "2020-01-01" }) :=
  ⟨(c2_update_rules [({"Artifact"}, { name := some "X" })] {"Artifact"}
      { name := some "Y", released_at := some "2020-01-01" }).1
      { name := some "X" } (20200101, "", 0, "") (maxDateCode, "", 0, "") rfl rfl rfl,
    (c2_update_rules [({"Artifact"}, { name := some "X" })] {"Creature"}
      { name := some "Y", released_at := some "2020-01-01" }).2 rfl |>.2 (by decide)⟩

/-! ## C1 -/

/-- C1: after any sequence of `process_card` calls starting from the empty map — in
both the printed-types aggregator and its effects-aware subclass — any two distinct
stored keys are subset-incomparable. -/
theorem c1_antichain (act nlt : Finset String) (cards : List Card) :
    (∀ A B, A ∈ acKeys (run_ac (printed_face_types act nlt) cards).1 →
      B ∈ acKeys (run_ac (printed_face_types act nlt) cards).1 → A ≠ B →
      ¬ A ⊆ B ∧ ¬ B ⊆ A)
    ∧ (∀ A B, A ∈ acKeys (run_ac (effects_face_types act nlt) cards).1 →
      B ∈ acKeys (run_ac (effects_face_types act nlt) cards).1 → A ≠ B →
      ¬ A ⊆ B ∧ ¬ B ⊆ A) := by
  constructor
  · exact acInv_keys _ (acInv_run _ cards ([], false) (List.Pairwise.nil))
  · exact acInv_keys _ (acInv_run _ cards ([], false) (List.Pairwise.nil))

theorem c1_antichain_witness :
    ¬ ({"Instant"} : Finset String) ⊆ {"Creature"} ∧ ¬ ({"Creature"} : Finset String) ⊆ {"Instant"} :=
  (c1_antichain ∅ ∅ [{ type_line := some "Instant" }, { type_line := some "Creature" }]).1
    {"Instant"} {"Creature"} (by decide) (by decide) (by decide)

/-! ## Helper lemmas for mana-cost generalization (C6, C7) -/

theorem contains_true_iff (l : List Char) (c : Char) : l.contains c = true ↔ c ∈ l := by
  simp [List.contains]

theorem contains_eq_false (l : List Char) (c : Char) (h : c ∉ l) : l.contains c = false := by
  cases hcb : l.contains c
  · rfl
  · exact absurd ((contains_true_iff l c).mp hcb) h

theorem assignFrom_length : ∀ (l g : List Char),
    (assignFrom l g).length = min l.length g.length := by
  intro l
  induction l with
  | nil => intro g; simp [assignFrom]
  | cons x xs ih =>
    intro g
    cases g with
    | nil => simp [assignFrom]
    | cons g0 gs =>
      simp only [assignFrom, List.length_cons, ih]
      omega

theorem assignFrom_append (c : Char) : ∀ (l g : List Char), l.length < g.length →
    assignFrom (l ++ [c]) g = assignFrom l g ++ [(c, g.getD l.length 'M')] := by
  intro l
  induction l with
  | nil =>
    intro g h
    cases g with
    | nil => simp at h
    | cons g0 gs => simp [assignFrom]
  | cons x xs ih =>
    intro g h
    cases g with
    | nil => simp at h
    | cons g0 gs =>
      simp only [List.cons_append, assignFrom, List.length_cons, List.getD_cons_succ,
        List.append_eq]
      rw [ih gs (by simpa using h)]

theorem assignFrom_lookup_none : ∀ (l g : List Char) (c : Char), l.length ≤ g.length →
    ((assignFrom l g).lookup c = none ↔ c ∉ l) := by
  intro l
  induction l with
  | nil => intro g c _; simp [assignFrom]
  | cons x xs ih =>
    intro g c h
    cases g with
    | nil => simp at h
    | cons g0 gs =>
      simp only [assignFrom, List.lookup_cons]
      by_cases hx : x = c
      · subst hx
        simp
      · have hb : (c == x) = false := by simp [Ne.symm hx]
        simp only [hb]
        simp only [List.mem_cons]
        rw [ih gs c (by simpa using h)]
        simp [Ne.symm hx]

theorem assignFrom_lookup_mem : ∀ (l g : List Char) (c : Char), c ∈ l →
    l.length ≤ g.length → (assignFrom l g).lookup c = some (g.getD (l.indexOf c) 'M') := by
  intro l
  induction l with
  | nil => intro g c hc _; simp at hc
  | cons x xs ih =>
    intro g c hc h
    cases g with
    | nil => simp at h
    | cons g0 gs =>
      simp only [assignFrom, List.lookup_cons]
      by_cases hx : x = c
      · subst hx
        simp [List.indexOf_cons_self]
      · have hb : (c == x) = false := by simp [Ne.symm hx]
        simp only [hb]
        rw [List.indexOf_cons_ne _ hx]
        have hcx : c ∈ xs := by
          rcases List.mem_cons.mp hc with h1 | h1
          · exact absurd h1.symm hx
          · exact h1
        rw [ih gs c hcx (by simpa using h)]
        simp

theorem colorSeen_subset : ∀ (cs seen : List Char), ∀ x ∈ colorSeen cs seen,
    x ∈ seen ∨ x ∈ wubrg := by
  intro cs
  induction cs with
  | nil => intro seen x hx; exact Or.inl hx
  | cons c cs ih =>
    intro seen x hx
    unfold colorSeen at hx
    split at hx
    · rename_i hcond
      rw [Bool.and_eq_true] at hcond
      rcases ih (seen ++ [c]) x hx with h | h
      · rcases List.mem_append.mp h with h1 | h1
        · exact Or.inl h1
        · obtain rfl : x = c := by simpa using h1
          exact Or.inr ((contains_true_iff _ _).mp hcond.1)
      · exact Or.inr h
    · exact ih seen x hx

theorem colorSeen_length_ge : ∀ (cs seen : List Char),
    seen.length ≤ (colorSeen cs seen).length := by
  intro cs
  induction cs with
  | nil => intro seen; exact le_refl _
  | cons c cs ih =>
    intro seen
    unfold colorSeen
    split
    · calc seen.length ≤ (seen ++ [c]).length := by simp
        _ ≤ _ := ih (seen ++ [c])
    · exact ih seen

theorem colorSeen_nodup : ∀ (cs seen : List Char), seen.Nodup →
    (colorSeen cs seen).Nodup := by
  intro cs
  induction cs with
  | nil => intro seen h; exact h
  | cons c cs ih =>
    intro seen h
    unfold colorSeen
    split
    · rename_i hcond
      rw [Bool.and_eq_true] at hcond
      have hc : c ∉ seen := by
        intro hmem
        have h2 := hcond.2
        rw [(contains_true_iff seen c).mpr hmem] at h2
        exact absurd h2 (by decide)
      exact ih (seen ++ [c]) (by simp [List.nodup_append, h, hc])
    · exact ih seen h

theorem colorSeen_mem_seen : ∀ (cs seen : List Char) (x : Char), x ∈ seen →
    x ∈ colorSeen cs seen := by
  intro cs
  induction cs with
  | nil => intro seen x h; exact h
  | cons c cs ih =>
    intro seen x h
    unfold colorSeen
    split
    · exact ih (seen ++ [c]) x (by simp [h])
    · exact ih seen x h

theorem colorSeen_mem : ∀ (cs seen : List Char) (c : Char), c ∈ cs → c ∈ wubrg →
    c ∈ colorSeen cs seen := by
  intro cs
  induction cs with
  | nil => intro seen c hc _; simp at hc
  | cons x xs ih =>
    intro seen c hc hw
    rcases List.mem_cons.mp hc with rfl | h1
    · unfold colorSeen
      split
      · exact colorSeen_mem_seen xs (seen ++ [c]) c (by simp)
      · rename_i hcond
        have hcs : c ∈ seen := by
          by_contra hns
          apply hcond
          rw [Bool.and_eq_true]
          refine ⟨(contains_true_iff _ _).mpr hw, ?_⟩
          rw [contains_eq_false seen c hns]
          rfl
        exact colorSeen_mem_seen xs seen c hcs
    · unfold colorSeen
      split
      · exact ih (seen ++ [x]) c h1 hw
      · exact ih seen c h1 hw

theorem colorSeen_no_colors : ∀ (cs seen : List Char), (∀ c ∈ cs, c ∉ wubrg) →
    colorSeen cs seen = seen := by
  intro cs
  induction cs with
  | nil => intro seen _; rfl
  | cons c cs ih =>
    intro seen h
    unfold colorSeen
    have hc : wubrg.contains c = false := contains_eq_false _ _ (h c (by simp))
    have hgf : (wubrg.contains c && !(seen.contains c)) = false := by rw [hc]; rfl
    rw [if_neg (by rw [hgf]; decide)]
    exact ih seen (fun d hd => h d (by simp [hd]))

theorem buildColorMap_spec : ∀ (cs seen : List Char), seen.length ≤ 4 → seen.Nodup →
    (∀ x ∈ seen, x ∈ wubrg) →
    buildColorMap cs (assignFrom seen mnop)
      = if (colorSeen cs seen).length ≤ 4 then some (assignFrom (colorSeen cs seen) mnop)
        else none := by
  intro cs
  induction cs with
  | nil =>
    intro seen h4 _ _
    simp only [buildColorMap, colorSeen]
    rw [if_pos h4]
  | cons c cs ih =>
    intro seen h4 hnd hcol
    have hmlen : (assignFrom seen mnop).length = seen.length := by
      rw [assignFrom_length]
      have : mnop.length = 4 := rfl
      omega
    have hml : seen.length ≤ mnop.length := by
      rw [show mnop.length = 4 from rfl]
      omega
    by_cases hc : c ∈ wubrg
    · by_cases hs : c ∈ seen
      · -- already-seen color: both scans skip it
        have hlk : (assignFrom seen mnop).lookup c ≠ none := by
          intro hn
          exact ((assignFrom_lookup_none seen mnop c hml).mp hn) hs
        have hno : ((assignFrom seen mnop).lookup c).isNone = false := by
          cases hl : (assignFrom seen mnop).lookup c
          · exact absurd hl hlk
          · rfl
        have hg1 : (wubrg.contains c && ((assignFrom seen mnop).lookup c).isNone) = false := by
          rw [hno, Bool.and_false]
        have hg2 : (wubrg.contains c && !(seen.contains c)) = false := by
          rw [(contains_true_iff seen c).mpr hs, Bool.not_true, Bool.and_false]
        rw [show buildColorMap (c :: cs) (assignFrom seen mnop)
            = if (wubrg.contains c && ((assignFrom seen mnop).lookup c).isNone) = true then
                (if (assignFrom seen mnop).length < 4 then
                  buildColorMap cs (assignFrom seen mnop
                    ++ [(c, mnop.getD (assignFrom seen mnop).length 'M')])
                else none)
              else buildColorMap cs (assignFrom seen mnop) from rfl]
        have hng1 : ¬ ((wubrg.contains c && ((assignFrom seen mnop).lookup c).isNone) = true) := by
          rw [hg1]
          decide
        have hng2 : ¬ ((wubrg.contains c && !(seen.contains c)) = true) := by
          rw [hg2]
          decide
        rw [if_neg hng1]
        rw [show colorSeen (c :: cs) seen
            = if (wubrg.contains c && !(seen.contains c)) = true then colorSeen cs (seen ++ [c])
              else colorSeen cs seen from rfl]
        rw [if_neg hng2]
        exact ih seen h4 hnd hcol
      · -- new color
        have hl0 : (assignFrom seen mnop).lookup c = none :=
          (assignFrom_lookup_none seen mnop c hml).mpr hs
        have hg1 : (wubrg.contains c && ((assignFrom seen mnop).lookup c).isNone) = true := by
          rw [(contains_true_iff wubrg c).mpr hc, hl0]
          rfl
        have hg2 : (wubrg.contains c && !(seen.contains c)) = true := by
          rw [(contains_true_iff wubrg c).mpr hc, contains_eq_false seen c hs]
          rfl
        rw [show buildColorMap (c :: cs) (assignFrom seen mnop)
            = if (wubrg.contains c && ((assignFrom seen mnop).lookup c).isNone) = true then
                (if (assignFrom seen mnop).length < 4 then
                  buildColorMap cs (assignFrom seen mnop
                    ++ [(c, mnop.getD (assignFrom seen mnop).length 'M')])
                else none)
              else buildColorMap cs (assignFrom seen mnop) from rfl]
        rw [if_pos hg1]
        rw [show colorSeen (c :: cs) seen
            = if (wubrg.contains c && !(seen.contains c)) = true then colorSeen cs (seen ++ [c])
              else colorSeen cs seen from rfl]
        rw [if_pos hg2]
        by_cases hlt : seen.length < 4
        · rw [if_pos (by omega : (assignFrom seen mnop).length < 4)]
          rw [hmlen, ← assignFrom_append c seen mnop (by rw [show mnop.length = 4 from rfl]; omega)]
          have hnd' : (seen ++ [c]).Nodup := by
            rw [List.nodup_append]
            refine ⟨hnd, List.nodup_singleton c, ?_⟩
            intro a ha hac
            obtain rfl : a = c := by simpa using hac
            exact hs ha
          exact ih (seen ++ [c])
            (by simp only [List.length_append, List.length_cons, List.length_nil]; omega)
            hnd'
            (by intro x hx
                rcases List.mem_append.mp hx with h1 | h1
                · exact hcol x h1
                · obtain rfl : x = c := by simpa using h1
                  exact hc)
        · rw [if_neg (by omega : ¬ (assignFrom seen mnop).length < 4)]
          have h5 : 5 ≤ (colorSeen cs (seen ++ [c])).length := by
            have := colorSeen_length_ge cs (seen ++ [c])
            have hlen : (seen ++ [c]).length = 5 := by
              simp only [List.length_append, List.length_cons, List.length_nil]
              omega
            omega
          rw [if_neg (by omega)]
    · -- not a color: both scans skip it
      have hw : wubrg.contains c = false := contains_eq_false _ _ hc
      have hg1 : (wubrg.contains c && ((assignFrom seen mnop).lookup c).isNone) = false := by
        rw [hw]
        rfl
      have hg2 : (wubrg.contains c && !(seen.contains c)) = false := by
        rw [hw]
        rfl
      rw [show buildColorMap (c :: cs) (assignFrom seen mnop)
          = if (wubrg.contains c && ((assignFrom seen mnop).lookup c).isNone) = true then
              (if (assignFrom seen mnop).length < 4 then
                buildColorMap cs (assignFrom seen mnop
                  ++ [(c, mnop.getD (assignFrom seen mnop).length 'M')])
              else none)
            else buildColorMap cs (assignFrom seen mnop) from rfl]
      have hng1 : ¬ ((wubrg.contains c && ((assignFrom seen mnop).lookup c).isNone) = true) := by
        rw [hg1]
        decide
      have hng2 : ¬ ((wubrg.contains c && !(seen.contains c)) = true) := by
        rw [hg2]
        decide
      rw [if_neg hng1]
      rw [show colorSeen (c :: cs) seen
          = if (wubrg.contains c && !(seen.contains c)) = true then colorSeen cs (seen ++ [c])
            else colorSeen cs seen from rfl]
      rw [if_neg hng2]
      exact ih seen h4 hnd hcol

theorem buildColorMap_eq (s : String) :
    buildColorMap s.data []
      = if (colorOrder s).length ≤ 4 then some (assignFrom (colorOrder s) mnop)
        else none :=
  buildColorMap_spec s.data [] (by simp) (by simp) (by simp)

theorem generalize_eq_of_le4 (s : String) (h : (colorOrder s).length ≤ 4) :
    generalize_mana_cost s
      = ⟨s.data.map (fun c => ((assignFrom (colorOrder s) mnop).lookup c).getD c)⟩ := by
  have heq : buildColorMap s.data [] = some (assignFrom (colorOrder s) mnop) := by
    rw [buildColorMap_eq s, if_pos h]
  simp only [generalize_mana_cost, heq]

theorem generalize_eq_of_ge5 (s : String) (h : 5 ≤ (colorOrder s).length) :
    generalize_mana_cost s = s := by
  have heq : buildColorMap s.data [] = none := by
    rw [buildColorMap_eq s, if_neg (by omega)]
  simp only [generalize_mana_cost, heq]

theorem getD_eq_of_lt {g : List Char} {n : Nat} (d d' : Char) (h : n < g.length) :
    g.getD n d = g.getD n d' := by
  rw [List.getD_eq_getElem g d h, List.getD_eq_getElem g d' h]

theorem getD_mem {g : List Char} {n : Nat} (d : Char) (h : n < g.length) :
    g.getD n d ∈ g := by
  rw [List.getD_eq_getElem g d h]
  exact List.getElem_mem h

theorem generalize_char_eq (s : String) (h : (colorOrder s).length ≤ 4) :
    ∀ c ∈ s.data, ((assignFrom (colorOrder s) mnop).lookup c).getD c
      = if c ∈ wubrg then genericFor (colorOrder s) c else c := by
  intro c hc
  have hmn : mnop.length = 4 := rfl
  by_cases hw : c ∈ wubrg
  · have hmem : c ∈ colorOrder s := colorSeen_mem s.data [] c hc hw
    rw [assignFrom_lookup_mem (colorOrder s) mnop c hmem (by omega)]
    rw [if_pos hw]
    unfold genericFor
    simp only [Option.getD_some]
    exact getD_eq_of_lt 'M' c (by
      have := List.indexOf_lt_length.mpr hmem
      omega)
  · have hnmem : c ∉ colorOrder s := by
      intro hmem
      rcases colorSeen_subset s.data [] c hmem with h1 | h1
      · simp at h1
      · exact hw h1
    rw [(assignFrom_lookup_none (colorOrder s) mnop c (by omega)).mpr hnmem]
    rw [if_neg hw]
    rfl

/-! ## C6 and C7 -/

/-- C6: a mana cost with 5 distinct color letters is returned unchanged; otherwise
each distinct color letter is replaced, in first-appearance order, by the next
placeholder from M, N, O, P, every other character passing through; including the two
concrete examples. -/
theorem c6_generalize :
    (∀ s : String, 5 ≤ (colorOrder s).length → generalize_mana_cost s = s)
    ∧ (∀ s : String, (colorOrder s).length ≤ 4 →
        (generalize_mana_cost s).data
          = s.data.map (fun c => if c ∈ wubrg then genericFor (colorOrder s) c else c))
    ∧ generalize_mana_cost "{W}{U}{R}" = "{M}{N}{O}"
    ∧ generalize_mana_cost "{W}{U}{B}{R}{G}" = "{W}{U}{B}{R}{G}" := by
  refine ⟨generalize_eq_of_ge5, ?_, by decide, by decide⟩
  intro s h
  rw [generalize_eq_of_le4 s h]
  exact List.map_congr_left (generalize_char_eq s h)

theorem c6_generalize_witness :
    generalize_mana_cost "{2/W}{2/U}" = "{2/M}{2/N}"
    ∧ generalize_mana_cost "{W}{U}{B}{R}{G}{W}" = "{W}{U}{B}{R}{G}{W}" := by
  constructor
  · have h := c6_generalize.2.1 "{2/W}{2/U}" (by decide)
    have : ("{2/W}{2/U}".data.map
        (fun c => if c ∈ wubrg then genericFor (colorOrder "{2/W}{2/U}") c else c))
        = "{2/M}{2/N}".data := by decide
    rw [this] at h
    exact congrArg String.mk h
  · exact c6_generalize.1 "{W}{U}{B}{R}{G}{W}" (by decide)

/-- C7: `generalize_mana_cost` is idempotent on costs with at most 4 distinct colors —
the output's letters all lie outside WUBRG, so a second pass changes nothing. -/
theorem c7_idempotent (s : String) (h : (colorOrder s).length ≤ 4) :
    generalize_mana_cost (generalize_mana_cost s) = generalize_mana_cost s := by
  have hdata : (generalize_mana_cost s).data
      = s.data.map (fun c => if c ∈ wubrg then genericFor (colorOrder s) c else c) := by
    rw [generalize_eq_of_le4 s h]
    exact List.map_congr_left (generalize_char_eq s h)
  have hnc : ∀ x ∈ (generalize_mana_cost s).data, x ∉ wubrg := by
    intro x hx
    rw [hdata] at hx
    obtain ⟨c, hc, rfl⟩ := List.mem_map.mp hx
    by_cases hw : c ∈ wubrg
    · rw [if_pos hw]
      have hmem : c ∈ colorOrder s := colorSeen_mem s.data [] c hc hw
      have hidx : (colorOrder s).indexOf c < mnop.length := by
        have := List.indexOf_lt_length.mpr hmem
        have hmn : mnop.length = 4 := rfl
        omega
      have : genericFor (colorOrder s) c ∈ mnop := getD_mem c hidx
      revert this
      generalize genericFor (colorOrder s) c = y
      intro hy
      fin_cases hy <;> decide
    · rw [if_neg hw]
      exact hw
  have hord : colorSeen (generalize_mana_cost s).data [] = [] :=
    colorSeen_no_colors _ [] hnc
  have hbuild : buildColorMap (generalize_mana_cost s).data [] = some [] := by
    have := buildColorMap_eq (generalize_mana_cost s)
    unfold colorOrder at this
    rw [hord] at this
    simpa using this
  have heq : generalize_mana_cost (generalize_mana_cost s)
      = ⟨(generalize_mana_cost s).data.map
          (fun c => ((([] : List (Char × Char)).lookup c).getD c))⟩ := by
    show (match buildColorMap (generalize_mana_cost s).data [] with
        | none => generalize_mana_cost s
        | some m => (⟨(generalize_mana_cost s).data.map (fun c => (m.lookup c).getD c)⟩ : String))
      = _
    rw [hbuild]
  rw [heq]
  have hid : ∀ c ∈ (generalize_mana_cost s).data,
      ((([] : List (Char × Char)).lookup c).getD c) = c := by
    intro c _
    rfl
  rw [List.map_congr_left hid, List.map_id']

/-! ## C9 -/

/-- C9 counterexample: in the concrete partial-match scenario of the claim — cycle
"Tutors" over cards A and B, finished, with only A observed — `get_sorted_data`
produces the one expected row, but its body (lines 108-164) contains no logging call,
so no warning is emitted, contradicting the claim's "with a warning". -/
theorem c9_rows_counterexample :
    supercycle_sorted_data [{ name := "Tutors", cards := ["A", "B"], finished := true }]
        [("A", 100)] 200
      = [{ supercycle := "Tutors", status := "Finished", startOrd := 100,
           endOrd := some 100, days := 0 }]
    ∧ supercycle_sorted_warnings [{ name := "Tutors", cards := ["A", "B"], finished := true }]
        [("A", 100)] 200 = [] := by
  exact ⟨by decide, rfl⟩

/-- C9 as amended (the row behavior holds, but no warning is emitted): a cycle with no
observed member produces no row; a partially matched cycle still produces exactly one
row computed from the matched members alone — earliest matched date to latest matched
date when finished, to today otherwise; and rows are ordered by descending elapsed
days. -/
theorem c9_rows_amended (cycles : List Cycle) (st : DateMap) (today : Nat) (cyc : Cycle)
    (hmem : cyc ∈ cycles) (hnd : (cycles.map Cycle.name).Nodup) :
    (matched_dates st cyc = [] →
      (supercycle_sorted_data cycles st today).filter
        (fun r => decide (r.supercycle = cyc.name)) = [])
    ∧ (matched_dates st cyc ≠ [] →
      (supercycle_sorted_data cycles st today).filter
        (fun r => decide (r.supercycle = cyc.name))
        = [{ supercycle := cyc.name,
             status := if cyc.finished then "Finished" else "Unfinished",
             startOrd := listMin (matched_dates st cyc),
             endOrd := if cyc.finished then some (listMax (matched_dates st cyc)) else none,
             days := ((if cyc.finished then listMax (matched_dates st cyc) else today : Nat) : Int)
               - (listMin (matched_dates st cyc) : Int) }])
    ∧ (supercycle_sorted_data cycles st today).Pairwise (fun a b => b.days ≤ a.days) := by
  have hperm : ((supercycle_sorted_data cycles st today).filter
        (fun r => decide (r.supercycle = cyc.name))).Perm
      ((cycles.filterMap (supercycle_row today st)).filter
        (fun r => decide (r.supercycle = cyc.name))) :=
    (sortStable_perm _ _).filter _
  have hraw := filter_rows_eq today st cycles cyc hmem hnd
  refine ⟨?_, ?_, ?_⟩
  · intro hd
    have hrow : supercycle_row today st cyc = none := by
      unfold supercycle_row
      rw [if_pos hd]
    rw [hrow, Option.toList_none] at hraw
    exact List.Perm.eq_nil (hraw ▸ hperm)
  · intro hd
    have hrow : supercycle_row today st cyc
        = some { supercycle := cyc.name,
                 status := if cyc.finished then "Finished" else "Unfinished",
                 startOrd := listMin (matched_dates st cyc),
                 endOrd := if cyc.finished then some (listMax (matched_dates st cyc)) else none,
                 days := ((if cyc.finished then listMax (matched_dates st cyc) else today : Nat) : Int)
                   - (listMin (matched_dates st cyc) : Int) } := by
      unfold supercycle_row
      rw [if_neg hd]
    rw [hrow, Option.toList_some] at hraw
    have h1 := hraw ▸ hperm
    exact List.perm_singleton.mp h1
  · exact pairwise_sortStable SupercycleRow.days _

theorem c9_rows_amended_witness :
    (supercycle_sorted_data
        [{ name := "Tutors", cards := ["A", "B"], finished := true }] [("A", 100)] 200).filter
      (fun r => decide (r.supercycle = "Tutors"))
      = [{ supercycle := "Tutors", status := "Finished", startOrd := 100,
           endOrd := some 100, days := 0 }] := by
  have h := (c9_rows_amended [{ name := "Tutors", cards := ["A", "B"], finished := true }]
    [("A", 100)] 200 { name := "Tutors", cards := ["A", "B"], finished := true }
    (by decide) (by decide)).2.1 (by decide)
  exact h.trans (by decide)

theorem c7_idempotent_witness :
    generalize_mana_cost (generalize_mana_cost "{W}{U}") = generalize_mana_cost "{W}{U}" :=
  c7_idempotent "{W}{U}" (by decide)

theorem c3_no_raise_amended_witness :
    (run_ac (printed_face_types ∅ ∅) [{ name := some "A" }, { name := some "B", released_at := some "2020-01-01" }]).2 = false
    ∧ (run_ac (effects_face_types ∅ ∅) [{ name := some "A" }, { name := some "B", released_at := some "2020-01-01" }]).2 = false
    ∧ (run_supercycle [{ name := some "A" }, { name := some "B", released_at := some "2020-01-01" }]).2 = false :=
  c3_no_raise_amended ∅ ∅ _ (by decide)

end Mtg
